import Mathlib

/-!
Verification development for the JavaScript lint core of `validate_js.py`
(repository ContinuousAudit).  The script text is modelled as `List Char`;
the regex character classes \w and \s are modelled at ASCII granularity,
matching the characters the repository's templates use.  File system access
and the `<script>`-block extraction regex are collaborators outside the core:
a document is modelled by the ordered sequence of raw script-block texts the
extractor hands to the core, per the input contract of the spec.
-/

namespace ValidateJs

/-- ASCII word character: the regex class \w of the declaration patterns
(letters, digits, underscore). -/
def isWordChar (c : Char) : Bool :=
  c.isAlpha || c.isDigit || c = '_'

/-- ASCII whitespace: the regex class \s (space, tab, newline, CR, VT, FF). -/
def isSpaceChar (c : Char) : Bool :=
  c = ' ' || c = '\t' || c = '\n' || c = '\r' || c = '\x0b' || c = '\x0c'

/-- The opening brace character. -/
def braceOpen : Char := '\x7b'

/-- The closing brace character. -/
def braceClose : Char := '\x7d'

/-- Does the second list start with the first one (regex literal match)? -/
def beginsWith : List Char → List Char → Bool
  | [], _ => true
  | _ :: _, [] => false
  | k :: ks, c :: cs => k == c && beginsWith ks cs

/-- Fuel-indexed scanner for the pattern \b<kw>\s+(\w+) (re.finditer semantics:
left-to-right, non-overlapping, greedy runs).  `prevw` records whether the
character just before the current position is a word character (for \b).
Returns the list of captured identifiers, or `none` if fuel runs out. -/
def scanDeclsF (kw : List Char) : Nat → Bool → List Char → Option (List (List Char))
  | _, _, [] => some []
  | 0, _, _ :: _ => none
  | fuel + 1, prevw, c :: rest =>
    if !prevw && beginsWith kw (c :: rest) then
      let after := (c :: rest).drop kw.length
      let sp := after.takeWhile isSpaceChar
      let body := after.dropWhile isSpaceChar
      let ident := body.takeWhile isWordChar
      if sp.isEmpty || ident.isEmpty then
        scanDeclsF kw fuel (isWordChar c) rest
      else
        match scanDeclsF kw fuel true (body.dropWhile isWordChar) with
        | some ids => some (ident :: ids)
        | none => none
    else
      scanDeclsF kw fuel (isWordChar c) rest

/-- All identifiers captured by \b<kw>\s+(\w+) over a line.  The scanner
advances at least one character per step, so `cs.length` fuel suffices. -/
def scanDecls (kw : List Char) (prevw : Bool) (cs : List Char) : List (List Char) :=
  (scanDeclsF kw cs.length prevw cs).getD []

/-- The keyword let. -/
def kwLet : List Char := ['l', 'e', 't']

/-- The keyword const. -/
def kwConst : List Char := ['c', 'o', 'n', 's', 't']

/-- The keyword var. -/
def kwVar : List Char := ['v', 'a', 'r']

/-- One declaration occurrence recorded by the tracker: 1-based line number,
declaring keyword, and the stripped source line for diagnostics. -/
structure Occurrence where
  lineNum : Nat
  declType : String
  lineText : List Char
deriving DecidableEq, Repr

/-- The three declaration patterns applied to one line, in source order
(let, then const, then var), each capture paired with its keyword tag. -/
def lineMatches (line : List Char) : List (List Char × String) :=
  (scanDecls kwLet false line).map (fun i => (i, "let")) ++
    (scanDecls kwConst false line).map (fun i => (i, "const")) ++
      (scanDecls kwVar false line).map (fun i => (i, "var"))

/-- Python str.strip: remove leading and trailing whitespace. -/
def pyStrip (cs : List Char) : List Char :=
  ((cs.dropWhile isSpaceChar).reverse.dropWhile isSpaceChar).reverse

/-- Python str.split on a newline: every separator splits, empty pieces kept,
and the empty string yields one empty piece. -/
def splitOnNl : List Char → List (List Char)
  | [] => [[]]
  | c :: cs =>
    if c = '\n' then [] :: splitOnNl cs
    else
      match splitOnNl cs with
      | [] => [[c]]
      | l :: ls => (c :: l) :: ls

/-- The three delimiter kinds checked for balance. -/
inductive DelimKind where
  | brace
  | paren
  | bracket
deriving DecidableEq, Repr

/-- Opening character of a delimiter kind. -/
def openChar : DelimKind → Char
  | .brace => braceOpen
  | .paren => '('
  | .bracket => '['

/-- Closing character of a delimiter kind. -/
def closeChar : DelimKind → Char
  | .brace => braceClose
  | .paren => ')'
  | .bracket => ']'

/-- A defect reported by the core: either a duplicate top-level declaration
(with its full occurrence list), or an unbalanced delimiter kind (the Python
dicts with type unmatched_braces / unmatched_parentheses / unmatched_brackets,
whose message carries the magnitude abs(net) and the direction
opening-vs-closing). -/
inductive Defect where
  | duplicateDeclaration (varName : List Char) (occurrences : List Occurrence)
  | unbalanced (kind : DelimKind) (magnitude : Nat) (excessOpeners : Bool)
deriving DecidableEq, Repr

/-- The aggregation map global_declarations: an insertion-ordered association
list from identifier to its recorded occurrences (Python defaultdict(list)). -/
abbrev DeclIndex := List (List Char × List Occurrence)

/-- Append one occurrence under a key: extend the key's list if the key is
present, otherwise add the key at the end (defaultdict insertion order). -/
def addOcc : DeclIndex → List Char → Occurrence → DeclIndex
  | [], x, o => [(x, [o])]
  | (k, v) :: rest, x, o =>
    if k = x then (k, v ++ [o]) :: rest else (k, v) :: addOcc rest x o

/-- Record a list of (identifier, occurrence) events in order. -/
def addAll (m : DeclIndex) (evs : List (List Char × Occurrence)) : DeclIndex :=
  evs.foldl (fun acc e => addOcc acc e.1 e.2) m

/-- The (identifier, occurrence) events one line contributes when checked. -/
def lineEvents (n : Nat) (line : List Char) : List (List Char × Occurrence) :=
  (lineMatches line).map (fun p => (p.1, ⟨n, p.2, pyStrip line⟩))

/-- The per-line loop of check_duplicate_declarations: thread brace_depth,
recover the pre-line depth by subtracting the line's own brace delta after
tallying it, and record the line's matches when that depth is ≤ 0. -/
def processLines : Nat → Int → List (List Char) → DeclIndex → DeclIndex
  | _, _, [], m => m
  | n, depth, l :: rest, m =>
    let opens : Int := (l.count braceOpen : Int)
    let closes : Int := (l.count braceClose : Int)
    let depth2 : Int := depth + opens - closes
    let lineDepth : Int := depth2 - opens + closes
    processLines (n + 1) depth2 rest
      (if lineDepth ≤ 0 then addAll m (lineEvents n l) else m)

/-- The full aggregation map built from a script text. -/
def buildIndex (text : List Char) : DeclIndex :=
  processLines 1 0 (splitOnNl text) []

/-- Duplicate extraction: one defect per identifier with more than one
recorded occurrence, in index (= first-insertion) order. -/
def dupDefects (m : DeclIndex) : List Defect :=
  (m.filter (fun p => 1 < p.2.length)).map
    (fun p => Defect.duplicateDeclaration p.1 p.2)

/-- check_duplicate_declarations of validate_js.py. -/
def check_duplicate_declarations (text : List Char) : List Defect :=
  dupDefects (buildIndex text)

/-- Net count (opens minus closes) of one delimiter kind over the whole text. -/
def delimNet (k : DelimKind) (text : List Char) : Int :=
  (text.count (openChar k) : Int) - (text.count (closeChar k) : Int)

/-- The balance checker of validate_js.py (the source names the function
after the common errors it scans for): one defect per delimiter kind with
non-zero net count, in the fixed order brace, paren, bracket, carrying
abs(net) and the direction. -/
def check_delim_errors (text : List Char) : List Defect :=
  (if delimNet .brace text ≠ 0 then
      [Defect.unbalanced .brace (delimNet .brace text).natAbs
        (decide (0 < delimNet .brace text))]
    else []) ++
  (if delimNet .paren text ≠ 0 then
      [Defect.unbalanced .paren (delimNet .paren text).natAbs
        (decide (0 < delimNet .paren text))]
    else []) ++
  (if delimNet .bracket text ≠ 0 then
      [Defect.unbalanced .bracket (delimNet .bracket text).natAbs
        (decide (0 < delimNet .bracket text))]
    else [])

/-- The merged defect list of one script block: duplicate-declaration defects
first, then the delimiter defects (the per-block body of validate_html_file). -/
def validate_block (text : List Char) : List Defect :=
  check_duplicate_declarations text ++ check_delim_errors text

/-- All (block ordinal, defect) pairs of one document, blocks numbered
from 1 (the all_errors list of validate_html_file). -/
def doc_errors (scripts : List (List Char)) : List (Nat × Defect) :=
  (scripts.enum.map
    (fun p => (validate_block p.2).map (fun e => (p.1 + 1, e)))).flatten

/-- validate_html_file on a document's extracted blocks: a document with no
blocks passes; otherwise it passes exactly when no block yields a defect. -/
def validate_html_file (scripts : List (List Char)) : Bool :=
  if scripts.isEmpty then true else (doc_errors scripts).isEmpty

/-- The all_valid flag of main: fold of validate_html_file over documents. -/
def main_result (docs : List (List (List Char))) : Bool :=
  docs.foldl (fun acc d => acc && validate_html_file d) true

/-- The exit status of main: 0 when every document passed, 1 otherwise. -/
def main_exit (docs : List (List (List Char))) : Nat :=
  if main_result docs then 0 else 1

/-- Running one block's analysis twice in a row on the same text (two calls
to each checker, nothing threaded between them). -/
def run_block_twice (text : List Char) : List Defect × List Defect :=
  (validate_block text, validate_block text)

/-- Brace delta of one line: opening minus closing braces. -/
def lineDelta (l : List Char) : Int :=
  (l.count braceOpen : Int) - (l.count braceClose : Int)

/-- Spec-side flat event list: the (identifier, occurrence) events of all
lines whose depth before the line is at most 0, in scan order.  The depth
accumulator starts at 0 and adds each processed line's delta. -/
def declsAux : Nat → Int → List (List Char) → List (List Char × Occurrence)
  | _, _, [] => []
  | n, d, l :: rest =>
    (if d ≤ 0 then lineEvents n l else []) ++ declsAux (n + 1) (d + lineDelta l) rest

/-- All top-level declaration events of a script text, in scan order. -/
def topLevelDecls (text : List Char) : List (List Char × Occurrence) :=
  declsAux 1 0 (splitOnNl text)

/-- The top-level occurrences of one identifier, in scan order. -/
def declsFor (x : List Char) (text : List Char) : List Occurrence :=
  ((topLevelDecls text).filter (fun e => e.1 = x)).map (fun e => e.2)

/-- Variant of the per-line loop with the pre-line depth carried directly. -/
def idxAux : Nat → Int → List (List Char) → DeclIndex → DeclIndex
  | _, _, [], m => m
  | n, d, l :: rest, m =>
    idxAux (n + 1) (d + lineDelta l) rest
      (if d ≤ 0 then addAll m (lineEvents n l) else m)

/-- Index construction as the spec states it: line number `processed.length + 1`
is classified top-level if and only if the cumulative brace delta of the lines
before it (`processed`) is at most 0, and only then are its matches recorded. -/
def idxSpecFrom : List (List Char) → List (List Char) → DeclIndex → DeclIndex
  | _, [], m => m
  | processed, l :: rest, m =>
    idxSpecFrom (processed ++ [l]) rest
      (if ((processed.map lineDelta).sum ≤ 0) then
        addAll m (lineEvents (processed.length + 1) l)
      else m)

/-- Lookup of one identifier's occurrence list in the index. -/
def lookupIdx (x : List Char) : DeclIndex → List Occurrence
  | [] => []
  | (k, v) :: rest => if k = x then v else lookupIdx x rest

/-- Position of a defect in the merged report: duplicates rank 0, then the
delimiter kinds in their fixed order. -/
def defectRank : Defect → Nat
  | .duplicateDeclaration _ _ => 0
  | .unbalanced .brace _ _ => 1
  | .unbalanced .paren _ _ => 2
  | .unbalanced .bracket _ _ => 3

/-- First recorded line of a duplicate-declaration defect (0 otherwise). -/
def firstLine : Defect → Nat
  | .duplicateDeclaration _ [] => 0
  | .duplicateDeclaration _ (o :: _) => o.lineNum
  | .unbalanced _ _ _ => 0

/-- The order the merged report must satisfy: strictly increasing rank, except
that two duplicate defects are ordered by first encountered line. -/
def mergeOrder (a b : Defect) : Prop :=
  defectRank a < defectRank b ∨
    (defectRank a = 0 ∧ defectRank b = 0 ∧ firstLine a ≤ firstLine b)

/-- Is this defect an unbalanced-delimiter defect of kind k? -/
def kindIs (k : DelimKind) : Defect → Bool
  | .unbalanced k' _ _ => k' = k
  | _ => false

/-- Is this defect a duplicate-declaration defect for identifier x? -/
def isDupFor (x : List Char) : Defect → Bool
  | .duplicateDeclaration y _ => y = x
  | _ => false

/-- Scenario A of the spec: two top-level declarations of a around a
one-line function body that re-declares it. -/
def scenarioA : List Char :=
  ("let a = 1;\nfunction f()\x7b let a = 2; \x7d\nlet a = 3;").toList

/-- A text declaring the identifier dollar twice at top level; the bound
name starts with a non-word character. -/
def dollarText : List Char := ("let $ = 1;\nlet $ = 2;").toList

/-- A text declaring b twice at top level. -/
def twiceText : List Char := ("let b = 1;\nvar b = 2;").toList

/-- A text declaring c exactly once at top level. -/
def onceText : List Char := ("const c = 1;").toList

/-- The occurrence line numbers of a duplicate-declaration defect. -/
def dupOccLines : Defect → List Nat
  | .duplicateDeclaration _ occs => occs.map Occurrence.lineNum
  | .unbalanced _ _ _ => []

/-- First recorded line of an index entry. -/
def entryLine (p : List Char × List Occurrence) : Nat :=
  firstLine (Defect.duplicateDeclaration p.1 p.2)

/-- Invariant of the aggregation map before processing line n: every entry
has at least one occurrence, first lines are at most n, and entries are
ordered by first recorded line. -/
def IdxInv (n : Nat) (m : DeclIndex) : Prop :=
  (∀ p ∈ m, p.2 ≠ [] ∧ entryLine p ≤ n) ∧
    m.Pairwise (fun a b => entryLine a ≤ entryLine b)

theorem addAll_append (m : DeclIndex) (a b : List (List Char × Occurrence)) :
    addAll m (a ++ b) = addAll (addAll m a) b := by
  simp [addAll, List.foldl_append]

theorem addAll_nil (m : DeclIndex) : addAll m [] = m := rfl

theorem processLines_eq_idxAux (ls : List (List Char)) :
    ∀ n d m, processLines n d ls m = idxAux n d ls m := by
  induction ls with
  | nil => intro n d m; rfl
  | cons l rest ih =>
    intro n d m
    simp only [processLines, idxAux]
    have h : d + (l.count braceOpen : Int) - (l.count braceClose : Int)
        - (l.count braceOpen : Int) + (l.count braceClose : Int) = d := by ring
    have h2 : d + (l.count braceOpen : Int) - (l.count braceClose : Int) =
        d + lineDelta l := by
      simp only [lineDelta]; ring
    rw [h, h2, ih]

theorem idxAux_eq_addAll (ls : List (List Char)) :
    ∀ n d m, idxAux n d ls m = addAll m (declsAux n d ls) := by
  induction ls with
  | nil => intro n d m; rfl
  | cons l rest ih =>
    intro n d m
    simp only [idxAux, declsAux]
    by_cases hd : d ≤ 0 <;> simp [hd, addAll_append, ih]

theorem idxAux_eq_specFrom (rest : List (List Char)) :
    ∀ processed m,
      idxAux (processed.length + 1) ((processed.map lineDelta).sum) rest m =
        idxSpecFrom processed rest m := by
  induction rest with
  | nil => intro processed m; rfl
  | cons l rest' ih =>
    intro processed m
    simp only [idxAux, idxSpecFrom]
    have hlen : processed.length + 1 + 1 = (processed ++ [l]).length + 1 := by
      simp
    have hsum : (processed.map lineDelta).sum + lineDelta l =
        ((processed ++ [l]).map lineDelta).sum := by
      simp
    rw [hlen, hsum, ih]

/-- The index equals the fold of all top-level declaration events. -/
theorem buildIndex_eq_addAll (text : List Char) :
    buildIndex text = addAll [] (topLevelDecls text) := by
  rw [buildIndex, processLines_eq_idxAux, idxAux_eq_addAll]
  rfl

theorem lookupIdx_addOcc (x k : List Char) (o : Occurrence) (m : DeclIndex) :
    lookupIdx x (addOcc m k o) =
      if k = x then lookupIdx x m ++ [o] else lookupIdx x m := by
  induction m with
  | nil =>
    by_cases h : k = x <;> simp [addOcc, lookupIdx, h]
  | cons p rest ih =>
    obtain ⟨k', v⟩ := p
    by_cases h1 : k' = k
    · subst h1
      by_cases h2 : k' = x <;> simp [addOcc, lookupIdx, h2]
    · by_cases h2 : k' = x
      · subst h2
        have h3 : ¬ k = k' := fun hc => h1 hc.symm
        simp [addOcc, lookupIdx, h1, h3]
      · simp [addOcc, lookupIdx, h1, h2, ih]

theorem lookupIdx_addAll (evs : List (List Char × Occurrence)) :
    ∀ (x : List Char) (m : DeclIndex),
      lookupIdx x (addAll m evs) =
        lookupIdx x m ++ (evs.filter (fun e => e.1 = x)).map (fun e => e.2) := by
  induction evs with
  | nil => intro x m; simp [addAll_nil]
  | cons e rest ih =>
    intro x m
    have hstep : addAll m (e :: rest) = addAll (addOcc m e.1 e.2) rest := rfl
    rw [hstep, ih, lookupIdx_addOcc]
    by_cases h : e.1 = x <;> simp [h]

theorem lookupIdx_nil_of_not_mem (x : List Char) (m : DeclIndex)
    (h : x ∉ m.map Prod.fst) : lookupIdx x m = [] := by
  induction m with
  | nil => rfl
  | cons p rest ih =>
    simp only [List.map_cons, List.mem_cons] at h
    push_neg at h
    have h1 : ¬ p.1 = x := fun hc => h.1 hc.symm
    obtain ⟨k, v⟩ := p
    simp only [lookupIdx, h1, if_neg h1]
    exact ih h.2

theorem keys_addOcc (m : DeclIndex) (k : List Char) (o : Occurrence) :
    (addOcc m k o).map Prod.fst =
      if k ∈ m.map Prod.fst then m.map Prod.fst else m.map Prod.fst ++ [k] := by
  induction m with
  | nil => simp [addOcc]
  | cons p rest ih =>
    obtain ⟨k', v⟩ := p
    by_cases h : k' = k
    · subst h
      simp [addOcc]
    · have h2 : ¬ k = k' := fun hc => h hc.symm
      by_cases h3 : k ∈ rest.map Prod.fst <;>
        simp [addOcc, h, h2, h3, ih]

theorem keysNodup_addOcc (m : DeclIndex) (k : List Char) (o : Occurrence)
    (h : (m.map Prod.fst).Nodup) : ((addOcc m k o).map Prod.fst).Nodup := by
  rw [keys_addOcc]
  by_cases hk : k ∈ m.map Prod.fst
  · simpa [hk] using h
  · simp only [hk, if_false]
    rw [List.nodup_append]
    refine ⟨h, List.nodup_singleton k, ?_⟩
    intro a ha hmem
    simp only [List.mem_singleton] at hmem
    subst hmem
    exact hk ha

theorem keysNodup_addAll (evs : List (List Char × Occurrence)) :
    ∀ m : DeclIndex, (m.map Prod.fst).Nodup →
      ((addAll m evs).map Prod.fst).Nodup := by
  induction evs with
  | nil => intro m h; simpa [addAll_nil] using h
  | cons e rest ih =>
    intro m h
    exact ih (addOcc m e.1 e.2) (keysNodup_addOcc m e.1 e.2 h)

theorem keysNodup_buildIndex (text : List Char) :
    ((buildIndex text).map Prod.fst).Nodup := by
  rw [buildIndex_eq_addAll]
  exact keysNodup_addAll (topLevelDecls text) [] (by simp)

theorem dupDefects_not_mem (x : List Char) (m : DeclIndex)
    (h : x ∉ m.map Prod.fst) :
    (dupDefects m).filter (isDupFor x) = [] := by
  induction m with
  | nil => rfl
  | cons p rest ih =>
    simp only [List.map_cons, List.mem_cons] at h
    push_neg at h
    have h1 : ¬ p.1 = x := fun hc => h.1 hc.symm
    have ih' := ih h.2
    simp only [dupDefects] at ih' ⊢
    by_cases h2 : 1 < p.2.length
    · simp [List.filter_cons, h2, isDupFor, h1, ih']
    · simp [List.filter_cons, h2, ih']

theorem dupDefects_filter (m : DeclIndex)
    (h : (m.map Prod.fst).Nodup) (x : List Char) :
    (dupDefects m).filter (isDupFor x) =
      if 1 < (lookupIdx x m).length then
        [Defect.duplicateDeclaration x (lookupIdx x m)]
      else [] := by
  induction m with
  | nil => simp [dupDefects, lookupIdx]
  | cons p rest ih =>
    obtain ⟨k, v⟩ := p
    simp only [List.map_cons, List.nodup_cons] at h
    by_cases hk : k = x
    · subst hk
      have hrest : (dupDefects rest).filter (isDupFor k) = [] :=
        dupDefects_not_mem k rest h.1
      have hlk : lookupIdx k ((k, v) :: rest) = v := by
        simp [lookupIdx]
      rw [hlk]
      simp only [dupDefects] at hrest ⊢
      by_cases hv : 1 < v.length
      · simp [List.filter_cons, hv, isDupFor, hrest]
      · simp [List.filter_cons, hv, hrest]
    · have hlk : lookupIdx x ((k, v) :: rest) = lookupIdx x rest := by
        simp [lookupIdx, hk]
      rw [hlk]
      have ih' := ih h.2
      simp only [dupDefects] at ih' ⊢
      by_cases hv : 1 < v.length
      · simp [List.filter_cons, hv, isDupFor, hk, ih']
      · simp [List.filter_cons, hv, ih']

theorem declsAux_lineNum_bound (ls : List (List Char)) :
    ∀ n d, ∀ e ∈ declsAux n d ls, n ≤ e.2.lineNum := by
  induction ls with
  | nil => intro n d e he; simp [declsAux] at he
  | cons l rest ih =>
    intro n d e he
    simp only [declsAux, List.mem_append] at he
    rcases he with he | he
    · by_cases hd : d ≤ 0
      · simp only [hd, if_true, lineEvents, List.mem_map] at he
        obtain ⟨p, _, hp⟩ := he
        simp [← hp]
      · simp [hd] at he
    · have := ih (n + 1) (d + lineDelta l) e he
      omega

theorem pairwise_of_total {α : Type _} {R : α → α → Prop} (h : ∀ a b, R a b) :
    ∀ l : List α, l.Pairwise R
  | [] => List.Pairwise.nil
  | x :: xs => List.Pairwise.cons (fun b _ => h x b) (pairwise_of_total h xs)

theorem declsAux_pairwise (ls : List (List Char)) :
    ∀ n d, (declsAux n d ls).Pairwise
      (fun a b => a.2.lineNum ≤ b.2.lineNum) := by
  induction ls with
  | nil => intro n d; simp [declsAux]
  | cons l rest ih =>
    intro n d
    simp only [declsAux]
    rw [List.pairwise_append]
    refine ⟨?_, ih (n + 1) (d + lineDelta l), ?_⟩
    · by_cases hd : d ≤ 0
      · simp only [hd, if_true, lineEvents]
        rw [List.pairwise_map]
        exact pairwise_of_total (fun a b => le_refl n) _
      · simp [hd]
    · intro a ha b hb
      have hb' := declsAux_lineNum_bound rest (n + 1) (d + lineDelta l) b hb
      by_cases hd : d ≤ 0
      · simp only [hd, if_true, lineEvents, List.mem_map] at ha
        obtain ⟨p, _, hp⟩ := ha
        have : a.2.lineNum = n := by simp [← hp]
        omega
      · simp [hd] at ha

theorem lookupIdx_buildIndex (x : List Char) (text : List Char) :
    lookupIdx x (buildIndex text) = declsFor x text := by
  rw [buildIndex_eq_addAll, lookupIdx_addAll]
  simp [lookupIdx, declsFor]

/-- C2: for every input text, the index built by the tracker equals the
spec-side construction in which a declaration on line i is recorded if and
only if the cumulative brace delta of lines 1..i-1 is at most 0 (the line's
own braces being subtracted back out after being tallied). -/
theorem c2_depth_rule (text : List Char) :
    buildIndex text = idxSpecFrom [] (splitOnNl text) [] := by
  rw [buildIndex, processLines_eq_idxAux]
  exact idxAux_eq_specFrom (splitOnNl text) [] []

/-- C5: an identifier with exactly two top-level declaration occurrences
(any mix of keywords) yields exactly one duplicate-declaration defect
carrying those two occurrences in line order; an identifier with exactly
one top-level occurrence yields no duplicate-declaration defect. -/
theorem c5_top_level_counts (text x : List Char) :
    ((declsFor x text).length = 2 →
      (check_duplicate_declarations text).filter (isDupFor x) =
        [Defect.duplicateDeclaration x (declsFor x text)] ∧
      ((declsFor x text).map Occurrence.lineNum).Pairwise (· ≤ ·)) ∧
    ((declsFor x text).length = 1 →
      (check_duplicate_declarations text).filter (isDupFor x) = []) := by
  have hd := dupDefects_filter (buildIndex text) (keysNodup_buildIndex text) x
  rw [lookupIdx_buildIndex] at hd
  constructor
  · intro h2
    constructor
    · show (dupDefects (buildIndex text)).filter (isDupFor x) = _
      rw [hd, h2]
      simp
    · have hp := declsAux_pairwise (splitOnNl text) 1 0
      rw [declsFor, List.pairwise_map, List.pairwise_map]
      exact List.Pairwise.sublist (List.filter_sublist _) hp
  · intro h1
    show (dupDefects (buildIndex text)).filter (isDupFor x) = _
    rw [hd, h1]
    simp

/-- Witness for C5: on a text declaring b twice (let then var), exactly one
defect for b with its two occurrences in line order; on a text declaring c
once, no defect for c. -/
theorem c5_top_level_counts_witness :
    ((check_duplicate_declarations twiceText).filter (isDupFor ['b']) =
        [Defect.duplicateDeclaration ['b'] (declsFor ['b'] twiceText)] ∧
      ((declsFor ['b'] twiceText).map Occurrence.lineNum).Pairwise (· ≤ ·)) ∧
    (check_duplicate_declarations onceText).filter (isDupFor ['c']) = [] :=
  ⟨(c5_top_level_counts twiceText ['b']).1 (by decide),
   (c5_top_level_counts onceText ['c']).2 (by decide)⟩

theorem entryLine_append (x : List Char) (v : List Occurrence) (o : Occurrence)
    (hv : v ≠ []) : entryLine (x, v ++ [o]) = entryLine (x, v) := by
  cases v with
  | nil => exact absurd rfl hv
  | cons a t => rfl

theorem addOcc_cons_eq (k : List Char) (v : List Occurrence)
    (rest : DeclIndex) (o : Occurrence) :
    addOcc ((k, v) :: rest) k o = (k, v ++ [o]) :: rest := by
  simp [addOcc]

theorem addOcc_cons_ne (k x : List Char) (v : List Occurrence)
    (rest : DeclIndex) (o : Occurrence) (h : ¬ k = x) :
    addOcc ((k, v) :: rest) x o = (k, v) :: addOcc rest x o := by
  simp [addOcc, h]

theorem addOcc_entries_bound (m : DeclIndex) (x : List Char) (o : Occurrence)
    (n : Nat) (hm : ∀ p ∈ m, p.2 ≠ [] ∧ entryLine p ≤ n) (ho : o.lineNum ≤ n) :
    ∀ q ∈ addOcc m x o, q.2 ≠ [] ∧ entryLine q ≤ n := by
  induction m with
  | nil =>
    intro q hq
    simp only [addOcc, List.mem_singleton] at hq
    subst hq
    exact ⟨by simp, by simpa [entryLine, firstLine] using ho⟩
  | cons p rest ih =>
    obtain ⟨k, v⟩ := p
    intro q hq
    have hhead := hm (k, v) (List.mem_cons_self _ _)
    by_cases hk : k = x
    · subst hk
      rw [addOcc_cons_eq, List.mem_cons] at hq
      rcases hq with hq | hq
      · subst hq
        refine ⟨by simp, ?_⟩
        rw [entryLine_append _ _ _ hhead.1]
        exact hhead.2
      · exact hm q (List.mem_cons_of_mem _ hq)
    · rw [addOcc_cons_ne _ _ _ _ _ hk, List.mem_cons] at hq
      rcases hq with hq | hq
      · subst hq; exact hhead
      · exact ih (fun p hp => hm p (List.mem_cons_of_mem _ hp)) q hq

theorem entryLine_mem_addOcc (m : DeclIndex) (x : List Char) (o : Occurrence)
    (hm : ∀ p ∈ m, p.2 ≠ []) :
    ∀ q ∈ addOcc m x o,
      (∃ q' ∈ m, entryLine q = entryLine q') ∨ entryLine q = o.lineNum := by
  induction m with
  | nil =>
    intro q hq
    simp only [addOcc, List.mem_singleton] at hq
    subst hq
    right
    rfl
  | cons p rest ih =>
    obtain ⟨k, v⟩ := p
    intro q hq
    have hhead := hm (k, v) (List.mem_cons_self _ _)
    by_cases hk : k = x
    · subst hk
      rw [addOcc_cons_eq, List.mem_cons] at hq
      rcases hq with hq | hq
      · subst hq
        left
        exact ⟨(k, v), List.mem_cons_self _ _, entryLine_append _ _ _ hhead⟩
      · left
        exact ⟨q, List.mem_cons_of_mem _ hq, rfl⟩
    · rw [addOcc_cons_ne _ _ _ _ _ hk, List.mem_cons] at hq
      rcases hq with hq | hq
      · subst hq
        left
        exact ⟨(k, v), List.mem_cons_self _ _, rfl⟩
      · rcases ih (fun p hp => hm p (List.mem_cons_of_mem _ hp)) q hq with
          ⟨q', hq', he⟩ | he
        · exact Or.inl ⟨q', List.mem_cons_of_mem _ hq', he⟩
        · exact Or.inr he

theorem pairwise_addOcc (m : DeclIndex) (x : List Char) (o : Occurrence)
    (n : Nat) (hm : ∀ p ∈ m, p.2 ≠ [] ∧ entryLine p ≤ n)
    (hp : m.Pairwise (fun a b => entryLine a ≤ entryLine b))
    (ho : o.lineNum = n) :
    (addOcc m x o).Pairwise (fun a b => entryLine a ≤ entryLine b) := by
  induction m with
  | nil => simp [addOcc]
  | cons p rest ih =>
    obtain ⟨k, v⟩ := p
    have hhead := hm (k, v) (List.mem_cons_self _ _)
    rw [List.pairwise_cons] at hp
    by_cases hk : k = x
    · subst hk
      rw [addOcc_cons_eq, List.pairwise_cons]
      refine ⟨?_, hp.2⟩
      intro b hb
      rw [entryLine_append _ _ _ hhead.1]
      exact hp.1 b hb
    · rw [addOcc_cons_ne _ _ _ _ _ hk, List.pairwise_cons]
      refine ⟨?_, ih (fun p hp' => hm p (List.mem_cons_of_mem _ hp')) hp.2⟩
      intro b hb
      rcases entryLine_mem_addOcc rest x o
          (fun p hp' => (hm p (List.mem_cons_of_mem _ hp')).1) b hb with
        ⟨q', hq', he⟩ | he
      · rw [he]
        exact hp.1 q' hq'
      · rw [he, ho]
        exact hhead.2

theorem idxInv_addAll (evs : List (List Char × Occurrence)) :
    ∀ (m : DeclIndex) (n : Nat), IdxInv n m → (∀ e ∈ evs, e.2.lineNum = n) →
      IdxInv n (addAll m evs) := by
  induction evs with
  | nil => intro m n hi _; simpa [addAll_nil] using hi
  | cons e rest ih =>
    intro m n hi he
    have hstep : addAll m (e :: rest) = addAll (addOcc m e.1 e.2) rest := rfl
    rw [hstep]
    have ho : e.2.lineNum = n := he e (List.mem_cons_self _ _)
    refine ih (addOcc m e.1 e.2) n
      ⟨addOcc_entries_bound m e.1 e.2 n hi.1 (le_of_eq ho),
        pairwise_addOcc m e.1 e.2 n hi.1 hi.2 ho⟩
      (fun e' he' => he e' (List.mem_cons_of_mem _ he'))

theorem idxInv_mono (n n' : Nat) (m : DeclIndex) (h : n ≤ n')
    (hi : IdxInv n m) : IdxInv n' m :=
  ⟨fun p hp => ⟨(hi.1 p hp).1, le_trans (hi.1 p hp).2 h⟩, hi.2⟩

theorem idxAux_inv (ls : List (List Char)) :
    ∀ (n : Nat) (d : Int) (m : DeclIndex), IdxInv n m →
      (∀ p ∈ idxAux n d ls m, p.2 ≠ []) ∧
        (idxAux n d ls m).Pairwise (fun a b => entryLine a ≤ entryLine b) := by
  induction ls with
  | nil => intro n d m hi; exact ⟨fun p hp => (hi.1 p hp).1, hi.2⟩
  | cons l rest ih =>
    intro n d m hi
    simp only [idxAux]
    refine ih (n + 1) (d + lineDelta l) _ ?_
    by_cases hd : d ≤ 0
    · simp only [hd, if_true]
      refine idxInv_mono n (n + 1) _ (by omega) ?_
      refine idxInv_addAll (lineEvents n l) m n hi ?_
      intro e he
      simp only [lineEvents, List.mem_map] at he
      obtain ⟨p, _, hp⟩ := he
      rw [← hp]
    · simp only [hd, if_false]
      exact idxInv_mono n (n + 1) m (by omega) hi

theorem buildIndex_inv (text : List Char) :
    (∀ p ∈ buildIndex text, p.2 ≠ []) ∧
      (buildIndex text).Pairwise (fun a b => entryLine a ≤ entryLine b) := by
  rw [buildIndex, processLines_eq_idxAux]
  exact idxAux_inv (splitOnNl text) 1 0 [] ⟨by simp, List.Pairwise.nil⟩

theorem delim_mem_rank (text : List Char) :
    ∀ b ∈ check_delim_errors text, 1 ≤ defectRank b := by
  intro b hb
  simp only [check_delim_errors, List.mem_append] at hb
  rcases hb with (hb | hb) | hb <;> split at hb <;>
    simp only [List.mem_singleton, List.not_mem_nil] at hb <;>
    first
      | exact absurd hb (by simp)
      | (subst hb; simp [defectRank])

/-- C4: the merged defect list of a block is the duplicate-declaration
defects first, ordered by the first line at which each identifier was
encountered, followed by the unbalanced-delimiter defects in the fixed
order brace, paren, bracket. -/
theorem c4_merge_order (text : List Char) :
    validate_block text =
      check_duplicate_declarations text ++ check_delim_errors text ∧
    (validate_block text).Pairwise mergeOrder := by
  refine ⟨rfl, ?_⟩
  rw [validate_block, List.pairwise_append]
  refine ⟨?_, ?_, ?_⟩
  · have hinv := buildIndex_inv text
    show (dupDefects (buildIndex text)).Pairwise mergeOrder
    rw [dupDefects, List.pairwise_map]
    have hfil : ((buildIndex text).filter
        (fun p => 1 < p.2.length)).Pairwise
        (fun a b => entryLine a ≤ entryLine b) :=
      List.Pairwise.sublist (List.filter_sublist _) hinv.2
    exact hfil.imp (fun hab => Or.inr ⟨rfl, rfl, hab⟩)
  · by_cases h1 : delimNet .brace text = 0 <;>
    by_cases h2 : delimNet .paren text = 0 <;>
    by_cases h3 : delimNet .bracket text = 0 <;>
      simp [check_delim_errors, h1, h2, h3, mergeOrder, defectRank,
        List.pairwise_cons]
  · intro a ha b hb
    have hrank_a : defectRank a = 0 := by
      simp only [check_duplicate_declarations, dupDefects, List.mem_map] at ha
      obtain ⟨p, _, hp⟩ := ha
      rw [← hp]
      rfl
    have hrank_b := delim_mem_rank text b hb
    left
    omega

/-- C3: for every text and delimiter kind, the balance checker emits a
defect of that kind if and only if the net count (opens minus closes over
the whole text) is non-zero, and any such defect carries magnitude abs(net)
and the excess-openers direction exactly when net is positive. -/
theorem c3_balance (text : List Char) (k : DelimKind) :
    (check_delim_errors text).filter (kindIs k) =
      (if delimNet k text = 0 then []
       else [Defect.unbalanced k (delimNet k text).natAbs
         (decide (0 < delimNet k text))]) ∧
    ((∃ mag dir, Defect.unbalanced k mag dir ∈ check_delim_errors text) ↔
      delimNet k text ≠ 0) := by
  cases k <;>
    by_cases h1 : delimNet .brace text = 0 <;>
    by_cases h2 : delimNet .paren text = 0 <;>
    by_cases h3 : delimNet .bracket text = 0 <;>
      constructor <;>
        simp [check_delim_errors, kindIs, h1, h2, h3, List.filter_append]

/-- C1 counterexample: on scenario A the duplicate checker does not report
occurrence lines [1, 3]; line 2's declaration is not excluded. -/
theorem c1_counterexample :
    ¬ ((check_duplicate_declarations scenarioA).map dupOccLines = [[1, 3]]) := by
  decide

/-- C1 amended: on scenario A the checker reports exactly one
duplicate-declaration defect for a carrying three occurrences, at lines
1, 2 and 3: the brace opened on line 2 takes effect only from line 3, so
the pre-line depth of line 2 is 0 and its declaration is included. -/
theorem c1_amended :
    check_duplicate_declarations scenarioA =
      [Defect.duplicateDeclaration ['a']
        [⟨1, "let", ("let a = 1;").toList⟩,
         ⟨2, "let", ("function f()\x7b let a = 2; \x7d").toList⟩,
         ⟨3, "let", ("let a = 3;").toList⟩]] := by
  decide

/-- C7: the two components are pure functions of the text: a second run on
identical text yields an identical defect list, and two identical blocks
analysed in sequence in one document yield the same defects for each. -/
theorem c7_idempotent (text : List Char) :
    (run_block_twice text).1 = (run_block_twice text).2 ∧
    doc_errors [text, text] =
      (validate_block text).map (fun e => (1, e)) ++
        (validate_block text).map (fun e => (2, e)) := by
  refine ⟨rfl, ?_⟩
  simp [doc_errors, List.enum, List.enumFrom]

/-- C9: a document with zero script blocks passes, contributes no defects,
and inserting such a document anywhere in a run leaves the run's exit
status unchanged. -/
theorem c9_no_blocks (pre post : List (List (List Char))) :
    validate_html_file [] = true ∧ doc_errors [] = [] ∧
    main_exit (pre ++ [[]] ++ post) = main_exit (pre ++ post) := by
  refine ⟨rfl, rfl, ?_⟩
  simp only [main_exit, main_result, List.foldl_append]
  have hmid : ∀ a : Bool,
      List.foldl (fun acc d => acc && validate_html_file d) a [[]] = a := by
    intro a
    simp [validate_html_file]
  rw [hmid]

theorem foldl_and_eq {α : Type _} (f : α → Bool) :
    ∀ (l : List α) (a : Bool),
      l.foldl (fun acc d => acc && f d) a = (a && l.all f) := by
  intro l
  induction l with
  | nil => intro a; simp
  | cons x xs ih =>
    intro a
    simp only [List.foldl_cons, List.all_cons, ih, Bool.and_assoc]

theorem doc_errors_eq_nil (d : List (List Char)) :
    doc_errors d = [] ↔ ∀ s ∈ d, validate_block s = [] := by
  rw [doc_errors, List.flatten_eq_nil_iff]
  constructor
  · intro h s hs
    have hmem : s ∈ d.enum.map Prod.snd := by
      rw [List.enum_map_snd]
      exact hs
    rw [List.mem_map] at hmem
    obtain ⟨p, hp, hps⟩ := hmem
    have hmap := h _ (List.mem_map_of_mem _ hp)
    rw [List.map_eq_nil_iff] at hmap
    rw [← hps]
    exact hmap
  · intro h y hy
    rw [List.mem_map] at hy
    obtain ⟨p, hp, hpy⟩ := hy
    have hs : p.2 ∈ d := by
      rw [← List.enum_map_snd d]
      exact List.mem_map_of_mem _ hp
    rw [← hpy, h p.2 hs]
    rfl

theorem validate_html_file_iff (d : List (List Char)) :
    validate_html_file d = true ↔ ∀ s ∈ d, validate_block s = [] := by
  cases d with
  | nil => simp [validate_html_file]
  | cons x xs =>
    have h1 : validate_html_file (x :: xs) = (doc_errors (x :: xs)).isEmpty := by
      simp [validate_html_file]
    rw [h1, List.isEmpty_iff]
    exact doc_errors_eq_nil (x :: xs)

/-- C8: the run exits with status 0 if and only if no script block of any
document yields a defect; one defect anywhere fails the whole run. -/
theorem c8_exit_status (docs : List (List (List Char))) :
    main_exit docs = 0 ↔ ∀ d ∈ docs, ∀ s ∈ d, validate_block s = [] := by
  have h : main_result docs = docs.all validate_html_file := by
    rw [main_result, foldl_and_eq]
    simp
  constructor
  · intro h0 d hd s hs
    by_cases hm : main_result docs = true
    · rw [h, List.all_eq_true] at hm
      exact (validate_html_file_iff d).1 (hm d hd) s hs
    · rw [main_exit, if_neg hm] at h0
      exact absurd h0 one_ne_zero
  · intro hall
    have hm : main_result docs = true := by
      rw [h, List.all_eq_true]
      intro d hd
      exact (validate_html_file_iff d).2 (hall d hd)
    rw [main_exit, if_pos hm]

theorem length_takeWhile_add_dropWhile (p : Char → Bool) (l : List Char) :
    (l.takeWhile p).length + (l.dropWhile p).length = l.length := by
  rw [← List.length_append, List.takeWhile_append_dropWhile]

theorem scan_step_lt (kw : List Char) (c : Char) (rest : List Char)
    (hident : (((c :: rest).drop kw.length).dropWhile
        isSpaceChar).takeWhile isWordChar ≠ []) :
    ((((c :: rest).drop kw.length).dropWhile
        isSpaceChar).dropWhile isWordChar).length < (c :: rest).length := by
  have h1 := length_takeWhile_add_dropWhile isWordChar
    (((c :: rest).drop kw.length).dropWhile isSpaceChar)
  have h2 : 1 ≤ ((((c :: rest).drop kw.length).dropWhile
      isSpaceChar).takeWhile isWordChar).length := by
    cases hbt : (((c :: rest).drop kw.length).dropWhile
        isSpaceChar).takeWhile isWordChar with
    | nil => exact absurd hbt hident
    | cons a t => simp [hbt]
  have h3 := length_takeWhile_add_dropWhile isSpaceChar
    ((c :: rest).drop kw.length)
  have h4 : ((c :: rest).drop kw.length).length ≤ (c :: rest).length := by
    rw [List.length_drop]
    omega
  simp only [List.length_cons] at *
  omega

theorem scanDeclsF_mono (kw : List Char) :
    ∀ (fuel fuel' : Nat) (pw : Bool) (cs : List Char),
      cs.length ≤ fuel → fuel ≤ fuel' →
      scanDeclsF kw fuel' pw cs = scanDeclsF kw fuel pw cs := by
  intro fuel
  induction fuel with
  | zero =>
    intro fuel' pw cs hlen _
    have hnil : cs = [] := List.eq_nil_of_length_eq_zero (Nat.le_zero.mp hlen)
    subst hnil
    cases fuel' <;> rfl
  | succ fuel ih =>
    intro fuel' pw cs hlen hf
    obtain ⟨fuel'', rfl⟩ : ∃ f, fuel' = f + 1 := by
      cases fuel' with
      | zero => omega
      | succ f => exact ⟨f, rfl⟩
    cases cs with
    | nil => rfl
    | cons c rest =>
      have hf2 : fuel ≤ fuel'' := by omega
      have hr : rest.length ≤ fuel := by
        simp only [List.length_cons] at hlen
        omega
      simp only [scanDeclsF]
      by_cases hb : (!pw && beginsWith kw (c :: rest)) = true
      · rw [if_pos hb, if_pos hb]
        by_cases hsp : ((((c :: rest).drop kw.length).takeWhile
              isSpaceChar).isEmpty ||
            ((((c :: rest).drop kw.length).dropWhile
              isSpaceChar).takeWhile isWordChar).isEmpty) = true
        · rw [if_pos hsp, if_pos hsp]
          exact ih fuel'' (isWordChar c) rest hr hf2
        · rw [if_neg hsp, if_neg hsp]
          have hident : (((c :: rest).drop kw.length).dropWhile
              isSpaceChar).takeWhile isWordChar ≠ [] := by
            intro hc
            apply hsp
            rw [hc]
            simp
          have hX : ((((c :: rest).drop kw.length).dropWhile
              isSpaceChar).dropWhile isWordChar).length ≤ fuel := by
            have := scan_step_lt kw c rest hident
            simp only [List.length_cons] at this hlen
            omega
          rw [ih fuel'' true _ hX hf2]
      · rw [if_neg hb, if_neg hb]
        exact ih fuel'' (isWordChar c) rest hr hf2

theorem scanDeclsF_isSome (kw : List Char) :
    ∀ (fuel : Nat) (pw : Bool) (cs : List Char), cs.length ≤ fuel →
      (scanDeclsF kw fuel pw cs).isSome = true := by
  intro fuel
  induction fuel with
  | zero =>
    intro pw cs hlen
    have hnil : cs = [] := List.eq_nil_of_length_eq_zero (Nat.le_zero.mp hlen)
    subst hnil
    rfl
  | succ fuel ih =>
    intro pw cs hlen
    cases cs with
    | nil => rfl
    | cons c rest =>
      have hr : rest.length ≤ fuel := by
        simp only [List.length_cons] at hlen
        omega
      simp only [scanDeclsF]
      by_cases hb : (!pw && beginsWith kw (c :: rest)) = true
      · rw [if_pos hb]
        by_cases hsp : ((((c :: rest).drop kw.length).takeWhile
              isSpaceChar).isEmpty ||
            ((((c :: rest).drop kw.length).dropWhile
              isSpaceChar).takeWhile isWordChar).isEmpty) = true
        · rw [if_pos hsp]
          exact ih (isWordChar c) rest hr
        · rw [if_neg hsp]
          have hident : (((c :: rest).drop kw.length).dropWhile
              isSpaceChar).takeWhile isWordChar ≠ [] := by
            intro hc
            apply hsp
            rw [hc]
            simp
          have hX : ((((c :: rest).drop kw.length).dropWhile
              isSpaceChar).dropWhile isWordChar).length ≤ fuel := by
            have := scan_step_lt kw c rest hident
            simp only [List.length_cons] at this hlen
            omega
          have hrec := ih true _ hX
          cases hXv : scanDeclsF kw fuel true
              ((((c :: rest).drop kw.length).dropWhile
                isSpaceChar).dropWhile isWordChar) with
          | none => rw [hXv] at hrec; exact absurd hrec (by simp)
          | some ids => rfl
      · rw [if_neg hb]
        exact ih (isWordChar c) rest hr

theorem scanDeclsF_eq_scanDecls (kw : List Char) (pw : Bool) (cs : List Char)
    (fuel : Nat) (h : cs.length ≤ fuel) :
    scanDeclsF kw fuel pw cs = some (scanDecls kw pw cs) := by
  rw [scanDeclsF_mono kw cs.length fuel pw cs (le_refl _) h]
  have hs := scanDeclsF_isSome kw cs.length pw cs (le_refl _)
  obtain ⟨r, hr⟩ := Option.isSome_iff_exists.mp hs
  rw [hr, scanDecls, hr]
  rfl

/-- C6: the only non-structural loop of the core (the pattern scan over a
line) terminates within text-length fuel and its result is independent of
any larger fuel bound; both checkers are total functions returning a defect
list for every input text. -/
theorem c6_total (text kw : List Char) (pw : Bool) (cs : List Char)
    (fuel : Nat) (h : cs.length ≤ fuel) :
    scanDeclsF kw fuel pw cs = some (scanDecls kw pw cs) ∧
    ∃ ds es : List Defect,
      check_duplicate_declarations text = ds ∧ check_delim_errors text = es :=
  ⟨scanDeclsF_eq_scanDecls kw pw cs fuel h, _, _, rfl, rfl⟩

/-- Witness for C6 at a concrete line and fuel bound. -/
theorem c6_total_witness :
    scanDeclsF kwLet 12 false (("let x = 1;").toList) =
      some (scanDecls kwLet false (("let x = 1;").toList)) ∧
    ∃ ds es : List Defect,
      check_duplicate_declarations scenarioA = ds ∧
        check_delim_errors scenarioA = es :=
  c6_total scenarioA kwLet false (("let x = 1;").toList) 12 (by decide)

theorem mem_takeWhile_word (p : Char → Bool) :
    ∀ (l : List Char), ∀ c ∈ l.takeWhile p, p c := by
  intro l
  induction l with
  | nil => intro c hc; simp [List.takeWhile] at hc
  | cons a t ih =>
    intro c hc
    by_cases ha : p a = true
    · rw [List.takeWhile_cons, if_pos ha, List.mem_cons] at hc
      rcases hc with hc | hc
      · subst hc; exact ha
      · exact ih c hc
    · rw [List.takeWhile_cons, if_neg ha] at hc
      simp at hc

theorem scanDeclsF_words (kw : List Char) :
    ∀ (fuel : Nat) (pw : Bool) (cs : List Char) (r : List (List Char)),
      scanDeclsF kw fuel pw cs = some r →
      ∀ i ∈ r, i ≠ [] ∧ ∀ c ∈ i, isWordChar c := by
  intro fuel
  induction fuel with
  | zero =>
    intro pw cs r h i hi
    cases cs with
    | nil =>
      have hr : r = [] := by
        simp only [scanDeclsF] at h
        exact (Option.some_inj.mp h).symm
      subst hr
      simp at hi
    | cons c rest => simp [scanDeclsF] at h
  | succ fuel ih =>
    intro pw cs r h i hi
    cases cs with
    | nil =>
      have hr : r = [] := by
        simp only [scanDeclsF] at h
        exact (Option.some_inj.mp h).symm
      subst hr
      simp at hi
    | cons c rest =>
      simp only [scanDeclsF] at h
      by_cases hb : (!pw && beginsWith kw (c :: rest)) = true
      · rw [if_pos hb] at h
        by_cases hsp : ((((c :: rest).drop kw.length).takeWhile
              isSpaceChar).isEmpty ||
            ((((c :: rest).drop kw.length).dropWhile
              isSpaceChar).takeWhile isWordChar).isEmpty) = true
        · rw [if_pos hsp] at h
          exact ih (isWordChar c) rest r h i hi
        · rw [if_neg hsp] at h
          cases hXv : scanDeclsF kw fuel true
              ((((c :: rest).drop kw.length).dropWhile
                isSpaceChar).dropWhile isWordChar) with
          | none => rw [hXv] at h; simp at h
          | some ids =>
            rw [hXv] at h
            have hr : r = (((c :: rest).drop kw.length).dropWhile
                isSpaceChar).takeWhile isWordChar :: ids :=
              (Option.some_inj.mp h).symm
            subst hr
            rw [List.mem_cons] at hi
            rcases hi with hi | hi
            · subst hi
              refine ⟨?_, mem_takeWhile_word isWordChar _⟩
              intro hc
              apply hsp
              rw [hc]
              simp
            · exact ih true _ ids hXv i hi
      · rw [if_neg hb] at h
        exact ih (isWordChar c) rest r h i hi

theorem scanDecls_words (kw : List Char) (pw : Bool) (cs : List Char) :
    ∀ i ∈ scanDecls kw pw cs, i ≠ [] ∧ ∀ c ∈ i, isWordChar c := by
  intro i hi
  rw [scanDecls] at hi
  cases hF : scanDeclsF kw cs.length pw cs with
  | none => rw [hF] at hi; simp at hi
  | some r =>
    rw [hF] at hi
    exact scanDeclsF_words kw cs.length pw cs r hF i hi

/-- C10: every identifier the declaration patterns capture is a non-empty
run of word characters; a bound name beginning with a non-word character is
never recorded, so the text declaring dollar twice at top level yields no
duplicate-declaration defect. -/
theorem c10_word_idents (line : List Char) (p : List Char × String)
    (hp : p ∈ lineMatches line) :
    (p.1 ≠ [] ∧ ∀ c ∈ p.1, isWordChar c) ∧
      check_duplicate_declarations dollarText = [] := by
  refine ⟨?_, by decide⟩
  simp only [lineMatches, List.mem_append, List.mem_map] at hp
  rcases hp with (⟨i, hi, hip⟩ | ⟨i, hi, hip⟩) | ⟨i, hi, hip⟩ <;>
    (rw [← hip]; exact scanDecls_words _ _ _ i hi)

/-- Witness for C10 at a concrete line and capture. -/
theorem c10_word_idents_witness :
    ((['x'] : List Char) ≠ [] ∧ ∀ c ∈ (['x'] : List Char), isWordChar c) ∧
      check_duplicate_declarations dollarText = [] :=
  c10_word_idents (("let x").toList) (['x'], "let") (by decide)

end ValidateJs
